import Mathlib

/-!
Verification of the parser-combinator engine in `lib.py`.

Strings are modelled as `List Char`; a parser is its `parse` function,
`List Char → Option (List α × List Char)`, where `none` is the Failure
value (`None` in the source) and `some (tokens, rest)` is a success.
`RepeatParser.parse` is recursive with no structural bound in the source,
so it is embedded with an explicit fuel argument; all statements about it
quantify over sufficient fuel.  A second embedding with an `Except` error
channel models Python exceptions where they matter (`ConvertToType` with a
raising conversion function).  Finally, a deep syntax of parser trees with
a fueled evaluator covers the whole-combinator-set invariant that a
successful parse returns a suffix of its input.
-/

namespace ParserComb

/-- Python strings, as lists of characters. -/
abbrev Str := List Char

/-- The observable behaviour of a `ParserCombinator`: its `parse` method.
`none` models the `None` failure return. -/
abbrev Parser (α : Type) := Str → Option (List α × Str)

/-- `LetterParser.parse` (lib.py lines 65-71).  The configured `letter` is a
Python string of length at most one (see `letterParserInit`); `input_str[0]`
is the one-character string `[c]`, compared with `letter`, and on success the
token list is `[self.letter]` with remainder `input_str[1:]`. -/
def letterParse (letter : Str) : Parser Str := fun input =>
  match input with
  | [] => none
  | c :: rest => if [c] = letter then some ([letter], rest) else none

/-- `LetterParser.__init__` (lib.py lines 60-63): raises exactly when the
configured string has more than one character, otherwise stores it. -/
def letterParserInit (letter : Str) : Except String Str :=
  if letter.length > 1 then
    Except.error "letter must be one character or less(identity)"
  else
    Except.ok letter

/-- `ParserCombinator.__add__` (lib.py lines 18-35): sequence composition.
Runs `p`, then `q` on the remainder, concatenating token lists. -/
def addParse (p q : Parser α) : Parser α := fun input =>
  match p input with
  | some (firstToken, rest) =>
    match q rest with
    | none => none
    | some (secondToken, secondRest) => some (firstToken ++ secondToken, secondRest)
  | none => none

/-- `ParserCombinator.__mul__` (lib.py lines 39-50): ordered choice.
Runs `p`; on success returns its result, otherwise runs `q` on the same
input. -/
def mulParse (p q : Parser α) : Parser α := fun input =>
  match p input with
  | some first => some first
  | none => q input

/-- `ParserCombinator.__or__` (lib.py lines 52-53): defined as `self * other`. -/
def orParse (p q : Parser α) : Parser α := mulParse p q

/-- `RepeatParser.parse` (lib.py lines 81-92), with explicit fuel for the
unbounded self-recursion `self.parse(rest)`.  With fuel exhausted the result
is `none`; every statement below quantifies over sufficient fuel. -/
def repeatParse (p : Parser α) : Nat → Parser α
  | 0 => fun _ => none
  | fuel + 1 => fun input =>
    match p input with
    | none => none
    | some (tokens, rest) =>
      match repeatParse p fuel rest with
      | none => some (tokens, rest)
      | some (nextTokens, nextRest) => some (tokens ++ nextTokens, nextRest)

/-- `IgnoreParser.parse` (lib.py lines 101-107): keeps consumption, drops
tokens. -/
def ignoreParse (p : Parser α) : Parser α := fun input =>
  match p input with
  | none => none
  | some (_, rest) => some ([], rest)

/-- `ConvertToType.parse` (lib.py lines 119-126) in the exception-free
fragment: on success the token list is replaced by the single converted
token. -/
def convertParse (p : Parser α) (conversion : List α → β) : Parser β := fun input =>
  match p input with
  | none => none
  | some (tokens, rest) => some ([conversion tokens], rest)

/-- `OptionalParser.parse` (lib.py lines 139-144): turns failure into
`([], input_str)`, passes success through. -/
def optionalParse (p : Parser α) : Parser α := fun input =>
  match p input with
  | none => some ([], input)
  | some result => some result

/-- `LazyParser.parse` (lib.py lines 167-169): builds the parser at parse
time and runs it. -/
def lazyParse (parserCreator : Unit → Parser α) : Parser α := fun input =>
  (parserCreator ()) input

/-! ### Embedding with the Python exception channel

`ConvertToType.parse` calls `self.converter(tokens)` with no `try` around
it, so an exception raised by the conversion function escapes `parse`.
The following embedding makes that channel explicit: a parser either raises
(`Except.error`), fails (`Except.ok none`) or succeeds. -/

/-- A `parse` method that may raise: `Except.error e` models an uncaught
Python exception, `Except.ok none` the ordinary `None` failure. -/
abbrev ParserE (ε α : Type) := Str → Except ε (Option (List α × Str))

/-- `ConvertToType.parse` (lib.py lines 119-126) with the exception channel:
the line `tokens = [self.converter(tokens)]` is not guarded, so an error
raised by the conversion function propagates out of `parse` uncaught. -/
def convertParseE (p : ParserE ε α) (conversion : List α → Except ε β) :
    ParserE ε β := fun input =>
  match p input with
  | Except.error e => Except.error e
  | Except.ok none => Except.ok none
  | Except.ok (some (tokens, rest)) =>
    match conversion tokens with
    | Except.error e => Except.error e
    | Except.ok v => Except.ok (some ([v], rest))

/-! ### Deep syntax of combinator trees

For the invariant "the remainder of any successful parse is a suffix of the
input", the parser is an arbitrary tree built from the library's primitive
classes.  `lazy` carries the deferred construction function of `LazyParser`;
`evalP` interprets a tree with a fuel bound that decreases at every
recursive evaluation step. -/

/-- Trees built from the primitives of lib.py: `LetterParser`, `__add__`
(seq), `__mul__`/`__or__` (choice), `RepeatParser` (rep), `IgnoreParser`
(ignore), `ConvertToType` (convert), `OptionalParser` (opt), `LazyParser`
(lazy). -/
inductive PTree (α : Type) where
  | letter (l : Str)
  | seq (p q : PTree α)
  | choice (p q : PTree α)
  | rep (p : PTree α)
  | ignore (p : PTree α)
  | convert (p : PTree α) (f : List α → α)
  | opt (p : PTree α)
  | lazy (f : Unit → PTree α)

/-- Fueled interpreter for combinator trees; each case mirrors the `parse`
method of the corresponding class in lib.py.  `emb` injects the letter
strings produced by `LetterParser` into the dynamic token type `α`. -/
def evalP (emb : Str → α) : Nat → PTree α → Str → Option (List α × Str)
  | 0, _, _ => none
  | fuel + 1, t, input =>
    match t with
    | .letter l =>
      match input with
      | [] => none
      | c :: rest => if [c] = l then some ([emb l], rest) else none
    | .seq p q =>
      match evalP emb fuel p input with
      | none => none
      | some (t1, r1) =>
        match evalP emb fuel q r1 with
        | none => none
        | some (t2, r2) => some (t1 ++ t2, r2)
    | .choice p q =>
      match evalP emb fuel p input with
      | some first => some first
      | none => evalP emb fuel q input
    | .rep p =>
      match evalP emb fuel p input with
      | none => none
      | some (t1, r1) =>
        match evalP emb fuel (.rep p) r1 with
        | none => some (t1, r1)
        | some (t2, r2) => some (t1 ++ t2, r2)
    | .ignore p =>
      match evalP emb fuel p input with
      | none => none
      | some (_, r) => some ([], r)
    | .convert p f =>
      match evalP emb fuel p input with
      | none => none
      | some (ts, r) => some ([f ts], r)
    | .opt p =>
      match evalP emb fuel p input with
      | none => some ([], input)
      | some result => some result
    | .lazy f => evalP emb fuel (f ()) input

/-! ### Auxiliary notions -/

/-- The progress property: every success of `p` strictly shrinks the input. -/
def Progress (p : Parser α) : Prop :=
  ∀ input tokens rest, p input = some (tokens, rest) → rest.length < input.length

/-- The runs of `RepeatParser` described by the spec: apply `p` to successive
remainders while it succeeds; the result pairs the concatenation of all the
token lists with the remainder of the last success. -/
inductive RepRun (p : Parser α) : Str → List α × Str → Prop where
  | last {input : Str} {t : List α} {r : Str} :
      p input = some (t, r) → p r = none → RepRun p input (t, r)
  | step {input : Str} {t t2 : List α} {r r2 : Str} :
      p input = some (t, r) → RepRun p r (t2, r2) → RepRun p input (t ++ t2, r2)

/-- Unfolding equation of `repeatParse` at positive fuel. -/
theorem repeatParse_succ (p : Parser α) (fuel : Nat) (input : Str) :
    repeatParse p (fuel + 1) input =
      match p input with
      | none => none
      | some (tokens, rest) =>
        match repeatParse p fuel rest with
        | none => some (tokens, rest)
        | some (nextTokens, nextRest) => some (tokens ++ nextTokens, nextRest) :=
  rfl

/-- A `LetterParser` makes progress: any success consumes exactly the first
character. -/
theorem letterParse_progress (l : Str) : Progress (letterParse l) := by
  intro input tokens rest h
  cases input with
  | nil => exact nomatch h
  | cons c cs =>
    simp only [letterParse] at h
    split at h
    · simp only [Option.some.injEq, Prod.mk.injEq] at h
      obtain ⟨-, rfl⟩ := h
      simp
    · exact nomatch h

/-- For a progressing inner parser, once the fuel exceeds the input length
the result of `repeatParse` no longer depends on the fuel. -/
theorem repeatParse_stab (p : Parser α) (hp : Progress p) :
    ∀ fuel input, input.length < fuel →
      repeatParse p (fuel + 1) input = repeatParse p fuel input := by
  intro fuel
  induction fuel with
  | zero => exact fun input h => absurd h (by omega)
  | succ fuel ih =>
    intro input h
    rw [repeatParse_succ p (fuel + 1) input, repeatParse_succ p fuel input]
    cases hpi : p input with
    | none => rfl
    | some pres =>
      obtain ⟨t, r⟩ := pres
      have hr : r.length < input.length := hp input t r hpi
      show (match repeatParse p (fuel + 1) r with
            | none => some (t, r)
            | some (nextTokens, nextRest) => some (t ++ nextTokens, nextRest)) =
          (match repeatParse p fuel r with
            | none => some (t, r)
            | some (nextTokens, nextRest) => some (t ++ nextTokens, nextRest))
      rw [ih r (by omega)]

/-! ### Claims -/

/-- C1: For every single character `c` and every string `rest`, the
`LetterParser` for `c` parses `c :: rest` to the token list `[[c]]` (one
token, the one-character string) with remainder `rest`; it fails on the
empty string and on any input whose first character differs from `c`. -/
theorem literal_parse_correct (c : Char) (rest : Str) :
    letterParse [c] (c :: rest) = some ([[c]], rest) ∧
    letterParse [c] [] = none ∧
    ∀ d : Char, d ≠ c → letterParse [c] (d :: rest) = none := by
  refine ⟨?_, rfl, ?_⟩
  · simp [letterParse]
  · intro d hd
    simp [letterParse, hd]

/-- Witness for C1 at `c = 'a'`, `rest = "b"`, `d = 'b'`. -/
theorem literal_parse_correct_witness :
    letterParse ['a'] ['a', 'b'] = some ([['a']], ['b']) ∧
    letterParse ['a'] [] = none ∧
    letterParse ['a'] ['b', 'b'] = none := by
  obtain ⟨h1, h2, h3⟩ := literal_parse_correct 'a' ['b']
  exact ⟨h1, h2, h3 'b' (by decide)⟩

/-- C2: ordered choice `__mul__` returns exactly the first parser's result
whenever that parser succeeds, and otherwise returns the second parser's
result on the original, unmodified input. -/
theorem ordered_choice_semantics (p q : Parser α) (input : Str) :
    (∀ result, p input = some result → mulParse p q input = some result) ∧
    (p input = none → mulParse p q input = q input) := by
  constructor
  · intro result hr
    simp [mulParse, hr]
  · intro h
    simp [mulParse, h]

/-- Witness for C2 with two `LetterParser`s, once on an input where the
first alternative succeeds and once where it fails. -/
theorem ordered_choice_semantics_witness :
    mulParse (letterParse ['a']) (letterParse ['b']) ['a'] = some ([['a']], []) ∧
    mulParse (letterParse ['a']) (letterParse ['b']) ['b'] =
      letterParse ['b'] ['b'] := by
  obtain ⟨h1, -⟩ := ordered_choice_semantics (letterParse ['a']) (letterParse ['b']) ['a']
  obtain ⟨-, h2⟩ := ordered_choice_semantics (letterParse ['a']) (letterParse ['b']) ['b']
  exact ⟨h1 ([['a']], []) (by decide), h2 (by decide)⟩

/-- C5: `OptionalParser` never returns the failure value: when the inner
parser fails it succeeds with no tokens and the unchanged input, and when
the inner parser succeeds it passes the result through unchanged. -/
theorem optional_never_fails (p : Parser α) (input : Str) :
    optionalParse p input ≠ none ∧
    (p input = none → optionalParse p input = some ([], input)) ∧
    ∀ result, p input = some result → optionalParse p input = some result := by
  unfold optionalParse
  cases hp : p input with
  | none =>
    refine ⟨by simp, fun _ => rfl, fun result hr => ?_⟩
    exact absurd hr (by simp)
  | some result =>
    refine ⟨by simp, fun h => absurd h (by simp), fun r hr => ?_⟩
    rw [← hr]

/-- Witness for C5 with a `LetterParser` on a failing and a succeeding
input. -/
theorem optional_never_fails_witness :
    optionalParse (letterParse ['a']) ['b'] ≠ none ∧
    optionalParse (letterParse ['a']) ['b'] = some ([], ['b']) ∧
    optionalParse (letterParse ['a']) ['a'] = some ([['a']], []) := by
  obtain ⟨h1, h2, -⟩ := optional_never_fails (letterParse ['a']) ['b']
  obtain ⟨-, -, h3⟩ := optional_never_fails (letterParse ['a']) ['a']
  exact ⟨h1, h2 (by decide), h3 ([['a']], []) (by decide)⟩

/-- C7: sequence composition `__add__` is associative in the observed
result: `(A + B) + C` and `A + (B + C)` return equal values on every
input. -/
theorem sequence_assoc (p q r : Parser α) (input : Str) :
    addParse (addParse p q) r input = addParse p (addParse q r) input := by
  cases hp : p input with
  | none => simp [addParse, hp]
  | some pres =>
    obtain ⟨t1, r1⟩ := pres
    cases hq : q r1 with
    | none => simp [addParse, hp, hq]
    | some qres =>
      obtain ⟨t2, r2⟩ := qres
      cases hr : r r2 with
      | none => simp [addParse, hp, hq, hr]
      | some rres =>
        obtain ⟨t3, r3⟩ := rres
        simp [addParse, hp, hq, hr]

/-- C3: at sufficient fuel, `RepeatParser` fails exactly when the first
application of the inner parser fails; and (for an inner parser that
consumes on success, the case in which the source recursion is defined)
every success is a `RepRun`: the inner parser applied to successive
remainders until it fails, the token lists concatenated in order, the
remainder being the one left by the last success. -/
theorem repetition_semantics (p : Parser α) (fuel : Nat) (input : Str)
    (hfuel : input.length < fuel) :
    (repeatParse p fuel input = none ↔ p input = none) ∧
    (Progress p → ∀ result, repeatParse p fuel input = some result →
      RepRun p input result) := by
  revert hfuel
  induction fuel generalizing input with
  | zero => exact fun h => absurd h (by omega)
  | succ fuel ih =>
    intro hfuel
    constructor
    · rw [repeatParse_succ]
      cases hpi : p input with
      | none => simp
      | some pres =>
        obtain ⟨t, r⟩ := pres
        show (match repeatParse p fuel r with
              | none => some (t, r)
              | some (nextTokens, nextRest) => some (t ++ nextTokens, nextRest)) =
                none ↔
            some (t, r) = none
        cases hrec : repeatParse p fuel r with
        | none => simp
        | some nextRes =>
          obtain ⟨t2, r2⟩ := nextRes
          simp
    · intro hprog result hres
      cases hpi : p input with
      | none =>
        simp only [repeatParse_succ, hpi] at hres
        exact nomatch hres
      | some pres =>
        obtain ⟨t, r⟩ := pres
        simp only [repeatParse_succ, hpi] at hres
        have hr : r.length < input.length := hprog input t r hpi
        have hfr : r.length < fuel := by omega
        cases hrec : repeatParse p fuel r with
        | none =>
          simp only [hrec] at hres
          have hpr : p r = none := ((ih r hfr).1).mp hrec
          injection hres with h'
          subst h'
          exact RepRun.last hpi hpr
        | some nextRes =>
          obtain ⟨t2, r2⟩ := nextRes
          simp only [hrec] at hres
          have hrun : RepRun p r (t2, r2) := (ih r hfr).2 hprog (t2, r2) hrec
          injection hres with h'
          subst h'
          exact RepRun.step hpi hrun

/-- Witness for C3: `RepeatParser` over `LetterParser('a')` on `"aab"`,
fuel 4. -/
theorem repetition_semantics_witness :
    (repeatParse (letterParse ['a']) 4 ['a', 'a', 'b'] = none ↔
      letterParse ['a'] ['a', 'a', 'b'] = none) ∧
    RepRun (letterParse ['a']) ['a', 'a', 'b'] ([['a'], ['a']], ['b']) := by
  obtain ⟨h1, h2⟩ :=
    repetition_semantics (letterParse ['a']) 4 ['a', 'a', 'b'] (by decide)
  exact ⟨h1, h2 (letterParse_progress ['a']) ([['a'], ['a']], ['b']) (by decide)⟩

/-- C9: for every inner parser with the progress property, `RepeatParser`
terminates: on each input there is a single result that `repeatParse`
returns at every sufficient fuel, so the parse is a total function of the
input. -/
theorem repetition_terminates (p : Parser α) (hp : Progress p) (input : Str) :
    ∃ result, ∀ fuel, input.length < fuel → repeatParse p fuel input = result := by
  refine ⟨repeatParse p (input.length + 1) input, ?_⟩
  intro fuel hf
  induction fuel with
  | zero => exact absurd hf (by omega)
  | succ fuel ih =>
    rcases Nat.lt_or_ge input.length fuel with h | h
    · rw [repeatParse_stab p hp fuel input h]
      exact ih h
    · have heq : fuel = input.length := by omega
      subst heq
      rfl

/-- Witness for C9: `LetterParser('a')` has the progress property, so the
repetition over it terminates on `"aab"`. -/
theorem repetition_terminates_witness :
    ∃ result, ∀ fuel, (['a', 'a', 'b'] : Str).length < fuel →
      repeatParse (letterParse ['a']) fuel ['a', 'a', 'b'] = result :=
  repetition_terminates (letterParse ['a']) (letterParse_progress ['a'])
    ['a', 'a', 'b']

/-- An inner parser that succeeds consuming nothing, for exercising
`convertParseE`. -/
def cvtInner : ParserE Unit Unit := fun input => Except.ok (some ([], input))

/-- A conversion function that always raises. -/
def cvtBad : List Unit → Except Unit Unit := fun _ => Except.error ()

/-- C4 counterexample: with an inner parser that succeeds on `""` and a
conversion function that raises, `ConvertToType.parse` propagates the error
rather than returning the failure value `None` (`Except.ok none`). -/
theorem convert_error_not_failure :
    convertParseE cvtInner cvtBad [] = Except.error () ∧
    (Except.error () : Except Unit (Option (List Unit × Str))) ≠ Except.ok none := by
  exact ⟨rfl, fun h => nomatch h⟩

/-- C4 amended: whenever the inner parser succeeds and the conversion
function signals an error, `ConvertToType.parse` propagates that error
uncaught instead of returning the ordinary parse failure. -/
theorem convert_error_propagates (p : ParserE ε α) (f : List α → Except ε β)
    (input : Str) (tokens : List α) (rest : Str) (e : ε)
    (hp : p input = Except.ok (some (tokens, rest)))
    (hf : f tokens = Except.error e) :
    convertParseE p f input = Except.error e := by
  simp [convertParseE, hp, hf]

/-- Witness for the amended C4 on concrete inner parser, converter and
input. -/
theorem convert_error_propagates_witness :
    convertParseE cvtInner cvtBad [] = Except.error () :=
  convert_error_propagates cvtInner cvtBad [] [] [] () rfl rfl

/-- C6 counterexample: `LetterParser.__init__` accepts the empty string
(its guard only rejects length above one), and the resulting parser then
surfaces an ordinary parse failure at parse time. -/
theorem literal_init_empty_accepted :
    letterParserInit [] = Except.ok [] ∧ letterParse [] ['a'] = none := by
  constructor
  · rfl
  · decide

/-- C6 amended: `LetterParser.__init__` raises exactly when the configured
string has more than one character; a zero-character string is accepted at
construction time, and the parser it yields returns the ordinary parse
failure on every input. -/
theorem literal_init_guard (letter : Str) :
    (letterParserInit letter =
        Except.error "letter must be one character or less(identity)" ↔
      1 < letter.length) ∧
    ∀ input, letterParse [] input = none := by
  constructor
  · unfold letterParserInit
    split
    next h => simpa using h
    next h => simp [Nat.not_lt.mp (by simpa using h)]
  · intro input
    cases input with
    | nil => rfl
    | cons c cs => simp [letterParse]

/-- C8: for every parser tree built from the library's primitives and every
input, a successful parse returns a remainder that is a contiguous suffix of
that input. -/
theorem remainder_is_suffix (emb : Str → α) (fuel : Nat) (t : PTree α)
    (input : Str) (tokens : List α) (rest : Str)
    (h : evalP emb fuel t input = some (tokens, rest)) : rest <:+ input := by
  induction fuel generalizing t input tokens rest with
  | zero => exact nomatch h
  | succ fuel ih =>
    cases t with
    | letter l =>
      cases input with
      | nil => exact nomatch h
      | cons c cs =>
        simp only [evalP] at h
        split at h
        · simp only [Option.some.injEq, Prod.mk.injEq] at h
          obtain ⟨-, rfl⟩ := h
          exact List.suffix_cons c cs
        · exact nomatch h
    | seq p q =>
      simp only [evalP] at h
      cases hp : evalP emb fuel p input with
      | none =>
        simp only [hp] at h
        exact nomatch h
      | some pres =>
        obtain ⟨t1, r1⟩ := pres
        simp only [hp] at h
        cases hq : evalP emb fuel q r1 with
        | none =>
          simp only [hq] at h
          exact nomatch h
        | some qres =>
          obtain ⟨t2, r2⟩ := qres
          simp only [hq, Option.some.injEq, Prod.mk.injEq] at h
          obtain ⟨-, rfl⟩ := h
          exact (ih q r1 _ _ hq).trans (ih p input _ _ hp)
    | choice p q =>
      simp only [evalP] at h
      cases hp : evalP emb fuel p input with
      | none =>
        simp only [hp] at h
        exact ih q input _ _ h
      | some pres =>
        obtain ⟨t1, r1⟩ := pres
        simp only [hp, Option.some.injEq, Prod.mk.injEq] at h
        obtain ⟨-, rfl⟩ := h
        exact ih p input _ _ hp
    | rep p =>
      simp only [evalP] at h
      cases hp : evalP emb fuel p input with
      | none =>
        simp only [hp] at h
        exact nomatch h
      | some pres =>
        obtain ⟨t1, r1⟩ := pres
        simp only [hp] at h
        cases hrec : evalP emb fuel (.rep p) r1 with
        | none =>
          simp only [hrec, Option.some.injEq, Prod.mk.injEq] at h
          obtain ⟨-, rfl⟩ := h
          exact ih p input _ _ hp
        | some recRes =>
          obtain ⟨t2, r2⟩ := recRes
          simp only [hrec, Option.some.injEq, Prod.mk.injEq] at h
          obtain ⟨-, rfl⟩ := h
          exact (ih (.rep p) r1 _ _ hrec).trans (ih p input _ _ hp)
    | ignore p =>
      simp only [evalP] at h
      cases hp : evalP emb fuel p input with
      | none =>
        simp only [hp] at h
        exact nomatch h
      | some pres =>
        obtain ⟨t1, r1⟩ := pres
        simp only [hp, Option.some.injEq, Prod.mk.injEq] at h
        obtain ⟨-, rfl⟩ := h
        exact ih p input _ _ hp
    | convert p f =>
      simp only [evalP] at h
      cases hp : evalP emb fuel p input with
      | none =>
        simp only [hp] at h
        exact nomatch h
      | some pres =>
        obtain ⟨t1, r1⟩ := pres
        simp only [hp, Option.some.injEq, Prod.mk.injEq] at h
        obtain ⟨-, rfl⟩ := h
        exact ih p input _ _ hp
    | opt p =>
      simp only [evalP] at h
      cases hp : evalP emb fuel p input with
      | none =>
        simp only [hp, Option.some.injEq, Prod.mk.injEq] at h
        obtain ⟨-, rfl⟩ := h
        exact List.suffix_refl input
      | some pres =>
        obtain ⟨t1, r1⟩ := pres
        simp only [hp, Option.some.injEq, Prod.mk.injEq] at h
        obtain ⟨-, rfl⟩ := h
        exact ih p input _ _ hp
    | lazy f =>
      simp only [evalP] at h
      exact ih (f ()) input _ _ h

/-- Witness for C8: a `LetterParser('a')` tree on `"ab"` succeeds with
remainder `"b"`, a suffix of the input. -/
theorem remainder_is_suffix_witness :
    evalP (fun s => s) 1 (PTree.letter ['a']) ['a', 'b'] =
      some ([['a']], ['b']) ∧
    (['b'] : Str) <:+ ['a', 'b'] := by
  have h : evalP (fun s => s) 1 (PTree.letter ['a']) ['a', 'b'] =
      some ([['a']], ['b']) := by decide
  exact ⟨h, remainder_is_suffix (fun s => s) 1 (PTree.letter ['a'])
    ['a', 'b'] [['a']] ['b'] h⟩

/-- C10: the `__or__` operator is defined as `self * other`, so the two
choice operators are observationally identical. -/
theorem or_eq_mul (p q : Parser α) (input : Str) :
    orParse p q input = mulParse p q input := rfl

end ParserComb
